import Mathlib

/-!
Shallow embedding of `scripts/cicd/generate-downloads.py`, the template
renderer that produces the HTML and Markdown download pages from a JSON
data file.  Strings are modelled as `List Char`; Python's `str.replace`,
the `in` substring test and `'\n'.join` are modelled by structurally
recursive functions below; the untyped JSON dictionary accesses
(`data['latest']['version']`, `download['filename']`, `data.get('archive',
[])`, ...) are modelled by an `Except`-valued lookup on a `Json` tree,
where every lookup or shape failure is a `MissingField`-style error, file
reads are modelled by `Option` arguments (`none` = the file is missing),
and `sys.exit` codes by a function on the resulting `Except` value.
-/

namespace BV

/-- Strings of the Python program, modelled as lists of characters. -/
abbrev Str := List Char

/-- Coercion from Lean string literals to the model. -/
def str (s : String) : Str := s.data

/-- The left-brace character (written via its code point). -/
def lb : Char := Char.ofNat 123

/-- The right-brace character (written via its code point). -/
def rb : Char := Char.ofNat 125

/-- The newline character. -/
def nl : Char := Char.ofNat 10

/-- Does `p` match the beginning of `s`?  (`s.startswith(p)` semantics;
this is the elementary matcher used by the replacement scanner.) -/
def leadsWith : Str → Str → Bool
  | [], _ => true
  | _ :: _, [] => false
  | a :: p, c :: s => if a = c then leadsWith p s else false

/-- Python's substring test `pat in s`. -/
def occursIn (pat : Str) : Str → Bool
  | [] => pat.isEmpty
  | c :: t => leadsWith pat (c :: t) || occursIn pat t

/-- Fuel-driven scanner implementing Python's `str.replace(pat, rep)`:
scan left to right, replace each non-overlapping occurrence of `pat`,
never rescan the inserted replacement.  The fuel (one unit per emitted
position) makes the recursion structural so that the kernel can
evaluate it; `replaceAll` below supplies fuel `s.length`, which is
always sufficient since a match consumes at least one character. -/
def raF (pat rep : Str) : Nat → Str → Str
  | _, [] => []
  | 0, s => s
  | f + 1, c :: t =>
    if !pat.isEmpty && leadsWith pat (c :: t) then
      rep ++ raF pat rep f ((c :: t).drop pat.length)
    else
      c :: raF pat rep f t

/-- Python's `s.replace(pat, rep)` (the program only ever calls it with a
non-empty literal `pat`; for `pat = []` this model returns `s` unchanged). -/
def replaceAll (pat rep s : Str) : Str := raF pat rep s.length s

/-- Python's `sep.join(parts)`. -/
def joinWith (sep : Str) : List Str → Str
  | [] => []
  | [x] => x
  | x :: y :: rest => x ++ sep ++ joinWith sep (y :: rest)

/-- Split a string at every newline character (used only to state the
"one list line per entry" property of the Markdown version history). -/
def splitOnNl : Str → List Str
  | [] => [[]]
  | c :: t =>
    match splitOnNl t with
    | [] => [[]]
    | r :: rs => if c = nl then [] :: r :: rs else (c :: r) :: rs

/-- The placeholder token `{{KEY}}` built from a key, exactly as the
Python `f'{{{{{var}}}}}'` produces it. -/
def tok (k : Str) : Str := lb :: lb :: (k ++ [rb, rb])

/-- JSON values as far as `data.json` uses them: strings, arrays and
objects (an object is its ordered field list, as a Python dict). -/
inductive Json where
  | str (s : Str)
  | arr (elems : List Json)
  | obj (fields : List (Str × Json))

/-- The failure taxonomy of the script: the caught missing-data-file
case, a missing template file, and every lookup/shape failure on the
JSON data (Python's `KeyError`/`TypeError`, the spec's `MissingField`). -/
inductive Err where
  | dataNotFound
  | templateNotFound (p : Str)
  | missingField (k : Str)
deriving DecidableEq

/-- Association-list lookup with string keys (Python dict indexing). -/
def lookupStr {α : Type} : List (Str × α) → Str → Option α
  | [], _ => none
  | (k, v) :: rest, key => if k = key then some v else lookupStr rest key

/-- Explicit bind on `Except Err` (the error propagation of uncaught
Python exceptions). -/
def ebind {α β : Type} : Except Err α → (α → Except Err β) → Except Err β
  | .error e, _ => .error e
  | .ok a, f => f a

/-- Python `d[k]`: field access on a dict, raising on a missing key or a
non-dict receiver. -/
def Json.getField : Json → Str → Except Err Json
  | .obj fs, k =>
    match lookupStr fs k with
    | some v => .ok v
    | none => .error (.missingField k)
  | _, k => .error (.missingField k)

/-- Extraction of a string value (a non-string where the program needs a
string is a malformed-shape failure, reported like a missing field). -/
def Json.asStr : Json → Except Err Str
  | .str s => .ok s
  | _ => .error (.missingField (BV.str "str"))

/-- Python `.items()` on a value that must be a dict. -/
def Json.asObj : Json → Except Err (List (Str × Json))
  | .obj fs => .ok fs
  | _ => .error (.missingField (BV.str "items"))

/-- Iteration over a value that must be a list. -/
def Json.asArr : Json → Except Err (List Json)
  | .arr xs => .ok xs
  | _ => .error (.missingField (BV.str "list"))

/-- Python truthiness of the JSON values we model (`if archive:`). -/
def Json.truthy : Json → Bool
  | .str s => !s.isEmpty
  | .arr xs => !xs.isEmpty
  | .obj fs => !fs.isEmpty

/-- Python `data.get('archive', [])`: defaulting lookup on the root
object (a non-dict root is a shape failure). -/
def getArchive : Json → Except Err Json
  | .obj fs =>
    match lookupStr fs (str "archive") with
    | some v => .ok v
    | none => .ok (.arr [])
  | _ => .error (.missingField (str "archive"))

/-- The literal `'.html'` that selects the output format. -/
def htmlLit : Str := str ".html"

/-- The format test `'.html' in str(template_path)`. -/
def isHtml (p : Str) : Bool := occursIn htmlLit p

/-- The token `'{{DOWNLOAD_ROWS}}'`. -/
def tokDR : Str := tok (str "DOWNLOAD_ROWS")

/-- The token `'{{VERSION_HISTORY}}'`. -/
def tokVH : Str := tok (str "VERSION_HISTORY")

/-- The fixed `platform_info` table: platform key to
(display name, format label). -/
def platformInfo : List (Str × (Str × Str)) :=
  [ (str "macos_arm64", (str "macOS (Apple Silicon)", str "DMG"))
  , (str "macos_x64", (str "macOS (Intel)", str "DMG"))
  , (str "windows_msi", (str "Windows", str "MSI Installer"))
  , (str "windows_zip", (str "Windows", str "ZIP Archive"))
  , (str "linux_deb", (str "Linux", str "DEB Package"))
  , (str "linux_rpm", (str "Linux", str "RPM Package"))
  , (str "linux_appimage", (str "Linux", str "AppImage"))
  , (str "linux_tar", (str "Linux", str "TAR.GZ")) ]

/-- One download-table row: the HTML `<tr>` f-string when the template
path contains `.html`, the Markdown table row otherwise. -/
def rowText (p platform size ver fn : Str) : Str :=
  if isHtml p then
    str "              <tr>\n                <td>" ++ platform ++
    str "</td>\n                <td>" ++ size ++
    str "</td>\n                <td><a href=\"https://github.com/barqly/barqly-vault/releases/download/v" ++
    ver ++ str "/" ++ fn ++ str "\">" ++ fn ++ str "</a></td>\n              </tr>"
  else
    str "| " ++ platform ++ str " | " ++ size ++
    str " | [" ++ fn ++
    str "](https://github.com/barqly/barqly-vault/releases/download/v" ++
    ver ++ str "/" ++ fn ++ str ") |"

/-- The body of the download-rows loop for one `downloads` entry whose
key is in `platformInfo`: read `filename` and `size` from the entry,
re-read `data['latest']['version']`, format the row. -/
def buildRow (p : Str) (d : Json) (platform : Str) (dj : Json) : Except Err Str :=
  ebind (ebind (dj.getField (str "filename")) Json.asStr) fun fn =>
  ebind (ebind (dj.getField (str "size")) Json.asStr) fun size =>
  ebind (ebind (ebind (d.getField (str "latest")) (fun l => l.getField (str "version"))) Json.asStr) fun ver =>
  .ok (rowText p platform size ver fn)

/-- The download-rows loop over `downloads.items()`: a key outside
`platformInfo` is skipped without touching its value. -/
def buildRows (p : Str) (d : Json) : List (Str × Json) → Except Err (List Str)
  | [] => .ok []
  | (k, dj) :: rest =>
    match lookupStr platformInfo k with
    | some pi =>
      ebind (buildRow p d pi.1 dj) fun row =>
      ebind (buildRows p d rest) fun rows =>
      .ok (row :: rows)
    | none => buildRows p d rest

/-- The joined download-rows text for the data record: look up
`data['latest']['downloads']`, iterate its items, join the rows with
newlines. -/
def rowsStringOf (p : Str) (d : Json) : Except Err Str :=
  ebind (ebind (d.getField (str "latest")) (fun l => l.getField (str "downloads"))) fun dls =>
  ebind dls.asObj fun fs =>
  ebind (buildRows p d fs) fun rows =>
  .ok (joinWith [nl] rows)

/-- The download-rows expansion: only when the template contains
`{{DOWNLOAD_ROWS}}` are the data lookups performed and the token
replaced by the joined rows. -/
def expandRows (p : Str) (d : Json) (c : Str) : Except Err Str :=
  if occursIn tokDR c then
    ebind (rowsStringOf p d) fun rs => .ok (replaceAll tokDR rs c)
  else .ok c

/-- One version-history entry: the HTML `version-item` div or the
Markdown list line. -/
def histItem (p ver url : Str) : Str :=
  if isHtml p then
    str "              <div class=\"version-item\"><a href=\"" ++ url ++
    str "\">Version " ++ ver ++ str "</a></div>"
  else
    str "- [Version " ++ ver ++ str "](" ++ url ++ str ")"

/-- The version-history loop over the archive entries: read `version`
then `github_release_url` from each. -/
def buildHist (p : Str) : List Json → Except Err (List Str)
  | [] => .ok []
  | e :: rest =>
    ebind (ebind (e.getField (str "version")) Json.asStr) fun ver =>
    ebind (ebind (e.getField (str "github_release_url")) Json.asStr) fun url =>
    ebind (buildHist p rest) fun items =>
    .ok (histItem p ver url :: items)

/-- Wrap the joined items: the HTML grid container, or the flat joined
list for Markdown. -/
def histContainer (p : Str) (items : List Str) : Str :=
  if isHtml p then
    str "            <div class=\"version-history-grid\">\n" ++
    joinWith [nl] items ++ str "\n            </div>"
  else joinWith [nl] items

/-- The fixed placeholder text used when the archive is empty. -/
def fallbackFor (p : Str) : Str :=
  if isHtml p then
    str "            <div class=\"no-releases\">\n              <p>Release history will appear here once the first production release is available.</p>\n            </div>"
  else str "Version history will be available after multiple releases."

/-- The version-history text for the data record: `data.get('archive',
[])`, then either one formatted entry per element (wrapped for HTML) or
the fixed fallback when the archive is empty (falsy). -/
def historyStringOf (p : Str) (d : Json) : Except Err Str :=
  ebind (getArchive d) fun a =>
  if a.truthy then
    ebind a.asArr fun xs =>
    ebind (buildHist p xs) fun items =>
    .ok (histContainer p items)
  else .ok (fallbackFor p)

/-- The version-history expansion: only when the template contains
`{{VERSION_HISTORY}}` is the archive read and the token replaced. -/
def expandVH (p : Str) (d : Json) (c : Str) : Except Err Str :=
  if occursIn tokVH c then
    ebind (historyStringOf p d) fun hs => .ok (replaceAll tokVH hs c)
  else .ok c

/-- The scalar-substitution loop over `variables.items()` (dict
insertion order): each pass replaces every occurrence of `{{KEY}}`. -/
def substVars (vars : List (Str × Str)) (content : Str) : Str :=
  match vars with
  | [] => content
  | (k, v) :: rest => substVars rest (replaceAll (tok k) v content)

/-- `generate_content(template_path, data, variables)`: read the
template (`none` = the file is missing), substitute the scalar
variables, then perform the two structured expansions. -/
def generateContent (p : Str) (template : Option Str) (d : Json)
    (vars : List (Str × Str)) : Except Err Str :=
  match template with
  | none => .error (.templateNotFound p)
  | some content =>
    ebind (expandRows p d (substVars vars content)) fun c1 =>
    expandVH p d c1

/-- The `variables` dict that `main` builds from the data record, in
insertion order. -/
def buildVariables (d : Json) : Except Err (List (Str × Str)) :=
  ebind (ebind (ebind (d.getField (str "latest")) (fun l => l.getField (str "version"))) Json.asStr) fun v =>
  ebind (ebind (ebind (d.getField (str "latest")) (fun l => l.getField (str "release_date"))) Json.asStr) fun rd =>
  ebind (ebind (ebind (d.getField (str "latest")) (fun l => l.getField (str "github_release_url"))) Json.asStr) fun gu =>
  ebind (ebind (ebind (ebind (d.getField (str "latest")) (fun l => l.getField (str "verification"))) (fun ver => ver.getField (str "checksums_url"))) Json.asStr) fun cu =>
  .ok [ (str "LATEST_VERSION", v)
      , (str "RELEASE_DATE", rd)
      , (str "GITHUB_RELEASE_URL", gu)
      , (str "CHECKSUMS_URL", cu) ]

/-- The template path of the HTML output (only its `.html` part matters). -/
def htmlPath : Str := str "downloads.html.template"

/-- The template path of the Markdown output. -/
def mdPath : Str := str "downloads.md.template"

/-- The `main()` entry point: load the data file (the caught
`FileNotFoundError` case), build the variables, render the HTML then
the Markdown template. -/
def runMain (dataFile : Option Json) (htmlTemplate mdTemplate : Option Str) :
    Except Err (Str × Str) :=
  match dataFile with
  | none => .error .dataNotFound
  | some d =>
    ebind (buildVariables d) fun vars =>
    ebind (generateContent htmlPath htmlTemplate d vars) fun html =>
    ebind (generateContent mdPath mdTemplate d vars) fun md =>
    .ok (html, md)

/-- The process exit code: 0 on success; the caught missing-data case
calls `sys.exit(1)` and every uncaught exception also terminates the
interpreter with a non-zero (1) status. -/
def exitCode {α : Type} : Except Err α → Nat
  | .ok _ => 0
  | .error _ => 1

/-- The exit code of one `main()` invocation. -/
def mainExit (dataFile : Option Json) (htmlTemplate mdTemplate : Option Str) : Nat :=
  exitCode (runMain dataFile htmlTemplate mdTemplate)

/-- Fuel-driven simultaneous substitution: one left-to-right scan; at
each position the first variable whose token `{{KEY}}` matches is
replaced by its value and the scan resumes after the token; every other
character — including any `{{NAME}}` token with no entry — is copied
verbatim.  This is the specification reading of the scalar-substitution
step ("replace every literal occurrence of `{{KEY}}` with the
corresponding value, leave unmatched tokens untouched"), against which
the sequential `substVars` of the code is compared. -/
def ssF (vars : List (Str × Str)) : Nat → Str → Str
  | _, [] => []
  | 0, s => s
  | f + 1, c :: t =>
    match vars.find? (fun kv => leadsWith (tok kv.1) (c :: t)) with
    | some kv => kv.2 ++ ssF vars f ((c :: t).drop (tok kv.1).length)
    | none => c :: ssF vars f t

/-- The simultaneous substitution (spec reading) on a whole string. -/
def simulSubst (vars : List (Str × Str)) (s : Str) : Str := ssF vars s.length s

/-- A string containing neither brace character. -/
def braceFree (s : Str) : Prop := lb ∉ s ∧ rb ∉ s

instance decBraceFree (s : Str) : Decidable (braceFree s) := by
  unfold braceFree; exact inferInstance

/-- Non-interference of a variables mapping: distinct, non-empty,
brace-free keys; non-empty, brace-free values; and every value contains
some character outside every other variable's token, so a replacement
can neither contain nor complete an occurrence of another token. -/
def goodVars (vars : List (Str × Str)) : Prop :=
  (vars.map Prod.fst).Nodup ∧
  ∀ kv ∈ vars, kv.1 ≠ [] ∧ braceFree kv.1 ∧ kv.2 ≠ [] ∧ braceFree kv.2 ∧
    ∀ kw ∈ vars, kw.1 ≠ kv.1 → ∃ c ∈ kv.2, c ∉ tok kw.1

instance decGoodVars (vs : List (Str × Str)) : Decidable (goodVars vs) := by
  unfold goodVars; exact inferInstance

/-- Decidable equality of results, used to evaluate the renderer at
concrete inputs. -/
instance decEqExcept {ε α : Type} [DecidableEq ε] [DecidableEq α] :
    DecidableEq (Except ε α) := fun x y =>
  match x, y with
  | .ok a, .ok b =>
    match decEq a b with
    | isTrue h => isTrue (congrArg Except.ok h)
    | isFalse h => isFalse (fun hc => h (Except.ok.inj hc))
  | .error e, .error f =>
    match decEq e f with
    | isTrue h => isTrue (congrArg Except.error h)
    | isFalse h => isFalse (fun hc => h (Except.error.inj hc))
  | .ok _, .error _ => isFalse (fun hc => Except.noConfusion hc)
  | .error _, .ok _ => isFalse (fun hc => Except.noConfusion hc)

/-- Does a successful rendering result contain the given substring? -/
def resultContains (r : Except Err Str) (needle : Str) : Bool :=
  match r with
  | .ok s => occursIn needle s
  | .error _ => false

/-- A complete, well-formed data record (one known download, no
`archive` key), mirroring the shape of `data.json`. -/
def dataFull : Json := .obj
  [ (str "latest", .obj
      [ (str "version", .str (str "1.2.0"))
      , (str "release_date", .str (str "2025-09-01"))
      , (str "github_release_url", .str (str "https://github.com/barqly/barqly-vault/releases/tag/v1.2.0"))
      , (str "verification", .obj
          [ (str "checksums_url", .str (str "https://example.com/checksums.txt")) ])
      , (str "downloads", .obj
          [ (str "macos_arm64", .obj
              [ (str "filename", .str (str "Vault.dmg"))
              , (str "size", .str (str "10 MB")) ]) ])
      ]) ]

/-- A data record whose download filename is itself the literal text of
the `{{VERSION_HISTORY}}` placeholder, so that the download-rows
expansion injects that token into the page. -/
def dataInject : Json := .obj
  [ (str "latest", .obj
      [ (str "version", .str (str "1"))
      , (str "downloads", .obj
          [ (str "macos_arm64", .obj
              [ (str "filename", .str tokVH)
              , (str "size", .str (str "1 MB")) ]) ])
      ]) ]

/-- The four-variable mapping `main` builds, at realistic values. -/
def varsDemo : List (Str × Str) :=
  [ (str "LATEST_VERSION", str "1.2.0")
  , (str "RELEASE_DATE", str "2025-09-01")
  , (str "GITHUB_RELEASE_URL", str "https://github.com/barqly/barqly-vault/releases/tag/v1.2.0")
  , (str "CHECKSUMS_URL", str "https://example.com/checksums.txt") ]

/-! ## Elementary facts about the string scanner -/

theorem leadsWith_ex {p s : Str} (h : leadsWith p s = true) : ∃ t, s = p ++ t := by
  induction p generalizing s with
  | nil => exact ⟨s, rfl⟩
  | cons a p ih =>
    cases s with
    | nil => simp [leadsWith] at h
    | cons c t =>
      simp only [leadsWith] at h
      by_cases hac : a = c
      · subst hac
        simp only [if_pos rfl] at h
        obtain ⟨u, rfl⟩ := ih h
        exact ⟨u, rfl⟩
      · simp [if_neg hac] at h

theorem leadsWith_intro (p t : Str) : leadsWith p (p ++ t) = true := by
  induction p with
  | nil => rfl
  | cons a p ih => simp [leadsWith, ih]

theorem leadsWith_iff {p s : Str} : leadsWith p s = true ↔ ∃ t, s = p ++ t := by
  constructor
  · exact leadsWith_ex
  · rintro ⟨t, rfl⟩; exact leadsWith_intro p t

theorem leadsWith_length {p s : Str} (h : leadsWith p s = true) : p.length ≤ s.length := by
  obtain ⟨t, rfl⟩ := leadsWith_ex h
  simp

theorem leadsWith_take {p s : Str} (h : leadsWith p s = true) : s.take p.length = p := by
  obtain ⟨t, rfl⟩ := leadsWith_ex h
  exact List.take_left ..

theorem leadsWith_split {p s : Str} (h : leadsWith p s = true) : s = p ++ s.drop p.length := by
  obtain ⟨t, rfl⟩ := leadsWith_ex h
  rw [List.drop_left]

theorem leadsWith_mem {p s : Str} (h : leadsWith p s = true) {c : Char} (hc : c ∈ p) : c ∈ s := by
  obtain ⟨t, rfl⟩ := leadsWith_ex h
  exact List.mem_append_left _ hc

theorem leadsWith_nil {p : Str} (h : leadsWith p [] = true) : p = [] := by
  cases p with
  | nil => rfl
  | cons a q => simp [leadsWith] at h

theorem leadsWith_cons {a : Char} {p s : Str} (h : leadsWith (a :: p) s = true) :
    ∃ t, s = a :: t ∧ leadsWith p t = true := by
  cases s with
  | nil => simp [leadsWith] at h
  | cons c t =>
    simp only [leadsWith] at h
    by_cases hac : a = c
    · subst hac; rw [if_pos rfl] at h; exact ⟨t, rfl, h⟩
    · simp [if_neg hac] at h

theorem leadsWith_cons_iff {a : Char} {p : Str} {c : Char} {t : Str} :
    leadsWith (a :: p) (c :: t) = true ↔ a = c ∧ leadsWith p t = true := by
  constructor
  · intro h
    obtain ⟨u, he, hu⟩ := leadsWith_cons h
    cases he
    exact ⟨rfl, hu⟩
  · rintro ⟨rfl, h⟩
    simp [leadsWith, h]

theorem occursIn_of_leadsWith {pat s : Str} (h : leadsWith pat s = true) :
    occursIn pat s = true := by
  cases s with
  | nil => rw [leadsWith_nil h]; rfl
  | cons c t => simp [occursIn, h]

theorem occursIn_cons_false {pat : Str} {c : Char} {t : Str}
    (h : occursIn pat (c :: t) = false) :
    leadsWith pat (c :: t) = false ∧ occursIn pat t = false := by
  simpa [occursIn] using h

/-! ## Unfolding and fuel-independence of the replacement scanner -/

theorem raF_fuel (pat rep : Str) :
    ∀ (f g : Nat) (s : Str), s.length ≤ f → s.length ≤ g →
      raF pat rep f s = raF pat rep g s := by
  intro f
  induction f with
  | zero =>
    intro g s hf _
    have hs : s = [] := List.length_eq_zero.mp (Nat.le_zero.mp hf)
    subst hs
    cases g <;> rfl
  | succ f ih =>
    intro g s hf hg
    cases s with
    | nil => cases g <;> rfl
    | cons c t =>
      cases g with
      | zero => simp at hg
      | succ g =>
        simp only [raF]
        cases hcond : (!pat.isEmpty && leadsWith pat (c :: t)) with
        | false =>
          rw [if_neg (by simp)]
          have ht : t.length ≤ f := by
            simp only [List.length_cons] at hf; omega
          have ht2 : t.length ≤ g := by
            simp only [List.length_cons] at hg; omega
          exact congrArg (c :: ·) (ih g t ht ht2)
        | true =>
          rw [if_pos rfl]
          have hpat : pat ≠ [] := by
            intro he; subst he; simp at hcond
          have hp1 : 1 ≤ pat.length := by
            cases pat with
            | nil => exact absurd rfl hpat
            | cons _ _ => simp
          have hl : ((c :: t).drop pat.length).length ≤ f := by
            simp only [List.length_drop, List.length_cons]
            simp only [List.length_cons] at hf
            omega
          have hl2 : ((c :: t).drop pat.length).length ≤ g := by
            simp only [List.length_drop, List.length_cons]
            simp only [List.length_cons] at hg
            omega
          exact congrArg (rep ++ ·) (ih g _ hl hl2)

theorem replaceAll_nil (pat rep : Str) : replaceAll pat rep [] = [] := rfl

theorem replaceAll_pos {pat : Str} (rep : Str) {c : Char} {t : Str}
    (hp : pat ≠ []) (h : leadsWith pat (c :: t) = true) :
    replaceAll pat rep (c :: t) = rep ++ replaceAll pat rep ((c :: t).drop pat.length) := by
  have hp1 : 1 ≤ pat.length := by
    cases pat with
    | nil => exact absurd rfl hp
    | cons _ _ => simp
  show raF pat rep (c :: t).length (c :: t) = _
  simp only [List.length_cons, raF]
  rw [if_pos (by simp [hp, h, List.isEmpty_iff])]
  refine congrArg (rep ++ ·) ?_
  show raF pat rep t.length _ = raF pat rep ((c :: t).drop pat.length).length _
  exact raF_fuel pat rep t.length _ _
    (by simp only [List.length_drop, List.length_cons]; omega)
    (Nat.le_refl _)

theorem replaceAll_neg (pat rep : Str) {c : Char} {t : Str}
    (h : leadsWith pat (c :: t) = false) :
    replaceAll pat rep (c :: t) = c :: replaceAll pat rep t := by
  show raF pat rep (c :: t).length (c :: t) = _
  simp only [List.length_cons, raF]
  rw [if_neg (by simp [h])]
  rfl

theorem replaceAll_id {pat rep : Str} :
    ∀ {s : Str}, occursIn pat s = false → replaceAll pat rep s = s := by
  intro s
  induction s with
  | nil => intro _; rfl
  | cons c t ih =>
    intro h
    obtain ⟨h1, h2⟩ := occursIn_cons_false h
    rw [replaceAll_neg pat rep h1, ih h2]

theorem replaceAll_skip {pat : Str} (rep : Str) :
    ∀ (n : Nat) (s : Str),
      (∀ k, k < n → leadsWith pat (s.drop k) = false) →
      replaceAll pat rep s = s.take n ++ replaceAll pat rep (s.drop n) := by
  intro n
  induction n with
  | zero => intro s _; simp
  | succ n ih =>
    intro s h
    cases s with
    | nil => simp [replaceAll_nil]
    | cons c t =>
      have h0 : leadsWith pat (c :: t) = false := h 0 (Nat.succ_pos n)
      rw [replaceAll_neg pat rep h0]
      have ht : ∀ k, k < n → leadsWith pat (t.drop k) = false := by
        intro k hk
        have := h (k + 1) (Nat.succ_lt_succ hk)
        simpa [List.drop_succ_cons] using this
      simp only [List.take_succ_cons, List.drop_succ_cons]
      rw [ih t ht]
      rfl
theorem hdOfAppend {a : Str} (ha : a ≠ []) {u : Str} {x : Char} {t : Str}
    (h : a ++ u = x :: t) : x ∈ a := by
  cases a with
  | nil => exact absurd rfl ha
  | cons b a2 =>
    simp only [List.cons_append, List.cons.injEq] at h
    exact h.1 ▸ List.mem_cons_self b a2

theorem tok_ne_nil (k : Str) : tok k ≠ [] := by simp [tok]

theorem tok_length (k : Str) : (tok k).length = k.length + 4 := by
  simp [tok]

theorem lb_ne_rb : lb ≠ rb := by decide

theorem leadsWith_tok {X s : Str} (h : leadsWith (tok X) s = true) :
    ∃ t, s = lb :: lb :: t ∧ leadsWith (X ++ [rb, rb]) t = true := by
  obtain ⟨t1, he1, h1⟩ := leadsWith_cons (p := lb :: (X ++ [rb, rb])) h
  obtain ⟨t2, he2, h2⟩ := leadsWith_cons h1
  subst he2
  exact ⟨t2, he1, h2⟩

theorem replaceAll_through {X : Str} (rep : Str) {a : Str} (ha : lb ∉ a) (u : Str) :
    replaceAll (tok X) rep (a ++ u) = a ++ replaceAll (tok X) rep u := by
  have hclean : ∀ k, k < a.length → leadsWith (tok X) ((a ++ u).drop k) = false := by
    intro k hk
    cases hlw : leadsWith (tok X) ((a ++ u).drop k) with
    | false => rfl
    | true =>
      exfalso
      rw [List.drop_append_eq_append_drop, Nat.sub_eq_zero_of_le (Nat.le_of_lt hk),
        List.drop_zero] at hlw
      obtain ⟨t, he, _⟩ := leadsWith_tok hlw
      have hne : a.drop k ≠ [] := by
        intro hnil
        have := congrArg List.length hnil
        simp only [List.length_drop, List.length_nil] at this
        omega
      exact ha (List.drop_subset k a (hdOfAppend hne he))
  rw [replaceAll_skip rep a.length (a ++ u) hclean, List.take_left, List.drop_left]

theorem eqOfBraSplit :
    ∀ {X1 X2 u1 u2 : Str}, rb ∉ X1 → rb ∉ X2 →
      X1 ++ rb :: rb :: u1 = X2 ++ rb :: rb :: u2 → X1 = X2 := by
  intro X1
  induction X1 with
  | nil =>
    intro X2 u1 u2 _ hb2 h
    cases X2 with
    | nil => rfl
    | cons y Y2 =>
      simp only [List.nil_append, List.cons_append, List.cons.injEq] at h
      exact absurd (h.1 ▸ List.mem_cons_self y Y2) hb2
  | cons x X1 ih =>
    intro X2 u1 u2 hb1 hb2 h
    cases X2 with
    | nil =>
      simp only [List.nil_append, List.cons_append, List.cons.injEq] at h
      exact absurd (h.1.symm ▸ List.mem_cons_self x X1) hb1
    | cons y Y2 =>
      simp only [List.cons_append, List.cons.injEq] at h
      have hb1t : rb ∉ X1 := fun hm => hb1 (List.mem_cons_of_mem x hm)
      have hb2t : rb ∉ Y2 := fun hm => hb2 (List.mem_cons_of_mem y hm)
      rw [h.1, ih hb1t hb2t h.2]

theorem tokOfTokAppend {A B w : Str} (hbA : rb ∉ A) (hbB : rb ∉ B)
    (h : leadsWith (tok A) (tok B ++ w) = true) : A = B := by
  obtain ⟨t, he, h2⟩ := leadsWith_tok h
  simp only [tok, List.cons_append, List.cons.injEq] at he
  obtain ⟨u, hu⟩ := leadsWith_ex h2
  have hkey : B ++ rb :: rb :: w = A ++ rb :: rb :: u := by
    have h3 : (B ++ [rb, rb]) ++ w = (A ++ [rb, rb]) ++ u := he.2.2.trans hu
    simpa [List.append_assoc] using h3
  exact (eqOfBraSplit hbB hbA hkey).symm

theorem tokNoOverlapBoth {X1 X2 s : Str} (hb1 : rb ∉ X1) (hb2 : rb ∉ X2)
    (h1 : leadsWith (tok X1) s = true) (h2 : leadsWith (tok X2) s = true) : X1 = X2 := by
  obtain ⟨u, rfl⟩ := leadsWith_ex h2
  exact tokOfTokAppend hb1 hb2 h1
theorem tokShift {X1 X2 : Str} (hb1 : braceFree X1)
    {s : Str} (hlw : leadsWith (tok X1) s = true)
    {k : Nat} (hk0 : 0 < k) (hk : k < (tok X1).length) :
    leadsWith (tok X2) (s.drop k) = false := by
  obtain ⟨u, rfl⟩ := leadsWith_ex hlw
  cases hres : leadsWith (tok X2) ((tok X1 ++ u).drop k) with
  | false => rfl
  | true =>
    exfalso
    have hlb_not : lb ∉ X1 ++ [rb, rb] := by
      intro hm
      rcases List.mem_append.mp hm with hm1 | hm2
      · exact hb1.1 hm1
      · simp only [List.mem_cons, List.not_mem_nil, or_false] at hm2
        rcases hm2 with hm2 | hm2 <;> exact lb_ne_rb hm2
    match k, hk0, hk with
    | 1, _, hk =>
      rw [show (tok X1 ++ u).drop 1 = lb :: ((X1 ++ [rb, rb]) ++ u) by
        simp [tok]] at hres
      obtain ⟨t2, he2, _⟩ := leadsWith_tok hres
      simp only [List.cons.injEq] at he2
      have hne : X1 ++ [rb, rb] ≠ [] := by simp
      exact hlb_not (hdOfAppend hne he2.2)
    | (j + 2), _, hk =>
      rw [show (tok X1 ++ u).drop (j + 2) = (X1 ++ [rb, rb]).drop j ++ u from by
        have hle : j + 2 ≤ (tok X1).length := Nat.le_of_lt hk
        rw [List.drop_append_eq_append_drop, Nat.sub_eq_zero_of_le hle, List.drop_zero]
        rfl] at hres
      have hjlen : j < (X1 ++ [rb, rb]).length := by
        rw [tok_length] at hk
        simp only [List.length_append, List.length_cons, List.length_singleton]
        omega
      have hne : (X1 ++ [rb, rb]).drop j ≠ [] := by
        intro hnil
        have := congrArg List.length hnil
        simp only [List.length_drop, List.length_nil] at this
        omega
      obtain ⟨t2, he2, _⟩ := leadsWith_tok hres
      exact hlb_not (List.drop_subset j (X1 ++ [rb, rb]) (hdOfAppend hne he2))

theorem rb_mem_tok_drop {X : Str} {k : Nat} (hk : k < (tok X).length) :
    rb ∈ (tok X).drop k := by
  have hsplit : tok X = (lb :: lb :: (X ++ [rb])) ++ [rb] := by
    simp [tok]
  have hle : k ≤ (lb :: lb :: (X ++ [rb])).length := by
    rw [tok_length] at hk
    simp only [List.length_cons, List.length_append, List.length_singleton]
    omega
  rw [hsplit, List.drop_append_eq_append_drop, Nat.sub_eq_zero_of_le hle, List.drop_zero]
  exact List.mem_append_right _ (List.mem_singleton.mpr rfl)

theorem leadsWith_app_split {q : Str} :
    ∀ {a : Str} {b : Str}, leadsWith q (a ++ b) = true →
      leadsWith q a = true ∨
        (leadsWith a q = true ∧ leadsWith (q.drop a.length) b = true) := by
  intro a
  induction a generalizing q with
  | nil =>
    intro b h
    exact Or.inr ⟨rfl, h⟩
  | cons x a2 ih =>
    intro b h
    cases q with
    | nil => exact Or.inl rfl
    | cons y q2 =>
      rw [List.cons_append] at h
      obtain ⟨hyx, h2⟩ := leadsWith_cons_iff.mp h
      rcases ih h2 with h3 | ⟨h3, h4⟩
      · exact Or.inl (leadsWith_cons_iff.mpr ⟨hyx, h3⟩)
      · refine Or.inr ⟨leadsWith_cons_iff.mpr ⟨hyx.symm, h3⟩, ?_⟩
        simpa [List.length_cons] using h4

theorem drop_cons_of_drop {l : List Char} {k : Nat} {q0 : Char} {q2 : List Char}
    (h : l.drop k = q0 :: q2) : l.drop (k + 1) = q2 := by
  rw [← List.tail_drop, h]
  rfl

theorem noNewTok {pat rep X2 : Str} (hp : pat ≠ []) (hrb : rb ∉ rep)
    (hex : ∃ c ∈ rep, c ∉ tok X2) :
    ∀ (s : Str) (k : Nat), k < (tok X2).length →
      leadsWith ((tok X2).drop k) (replaceAll pat rep s) = true →
      leadsWith ((tok X2).drop k) s = true := by
  intro s
  induction s with
  | nil =>
    intro k hk h
    rw [replaceAll_nil] at h
    have hq := leadsWith_nil h
    have := congrArg List.length hq
    simp only [List.length_drop, List.length_nil] at this
    omega
  | cons c t ih =>
    intro k hk h
    cases hlw : leadsWith pat (c :: t) with
    | true =>
      exfalso
      rw [replaceAll_pos rep hp hlw] at h
      rcases leadsWith_app_split h with h1 | ⟨h1, _⟩
      · exact hrb (leadsWith_mem h1 (rb_mem_tok_drop hk))
      · obtain ⟨ch, hin, hout⟩ := hex
        exact hout (List.drop_subset k (tok X2) (leadsWith_mem h1 hin))
    | false =>
      rw [replaceAll_neg pat rep hlw] at h
      obtain ⟨q0, q2, hq⟩ : ∃ q0 q2, (tok X2).drop k = q0 :: q2 := by
        cases hqe : (tok X2).drop k with
        | nil =>
          exfalso
          have := congrArg List.length hqe
          simp only [List.length_drop, List.length_nil] at this
          omega
        | cons a b => exact ⟨a, b, rfl⟩
      rw [hq] at h ⊢
      case _ =>
        obtain ⟨hq0, h2⟩ := leadsWith_cons_iff.mp h
        cases q2 with
        | nil => exact leadsWith_cons_iff.mpr ⟨hq0, rfl⟩
        | cons r0 r2 =>
          have hq2 : (tok X2).drop (k + 1) = r0 :: r2 := drop_cons_of_drop hq
          have hk1 : k + 1 < (tok X2).length := by
            have := congrArg List.length hq2
            simp only [List.length_drop, List.length_cons] at this
            omega
          have := ih (k + 1) hk1 (by rw [hq2]; exact h2)
          rw [hq2] at this
          exact leadsWith_cons_iff.mpr ⟨hq0, this⟩
theorem ssF_fuel (vars : List (Str × Str)) :
    ∀ (f g : Nat) (s : Str), s.length ≤ f → s.length ≤ g →
      ssF vars f s = ssF vars g s := by
  intro f
  induction f with
  | zero =>
    intro g s hf _
    have hs : s = [] := List.length_eq_zero.mp (Nat.le_zero.mp hf)
    subst hs
    cases g <;> rfl
  | succ f ih =>
    intro g s hf hg
    cases s with
    | nil => cases g <;> rfl
    | cons c t =>
      cases g with
      | zero => simp at hg
      | succ g =>
        simp only [ssF]
        cases hm : vars.find? (fun kv => leadsWith (tok kv.1) (c :: t)) with
        | none =>
          have ht : t.length ≤ f := by
            simp only [List.length_cons] at hf; omega
          have ht2 : t.length ≤ g := by
            simp only [List.length_cons] at hg; omega
          exact congrArg (c :: ·) (ih g t ht ht2)
        | some kv =>
          have hL : 1 ≤ (tok kv.1).length := by
            rw [tok_length]; omega
          have hl : ((c :: t).drop (tok kv.1).length).length ≤ f := by
            simp only [List.length_drop, List.length_cons]
            simp only [List.length_cons] at hf
            omega
          have hl2 : ((c :: t).drop (tok kv.1).length).length ≤ g := by
            simp only [List.length_drop, List.length_cons]
            simp only [List.length_cons] at hg
            omega
          exact congrArg (kv.2 ++ ·) (ih g _ hl hl2)

theorem ss_pos {vars : List (Str × Str)} {c : Char} {t : Str} {kv : Str × Str}
    (hm : vars.find? (fun kv => leadsWith (tok kv.1) (c :: t)) = some kv) :
    simulSubst vars (c :: t) =
      kv.2 ++ simulSubst vars ((c :: t).drop (tok kv.1).length) := by
  show ssF vars (t.length + 1) (c :: t) = _
  simp only [ssF]
  rw [hm]
  refine congrArg (kv.2 ++ ·) ?_
  show ssF vars t.length _ = ssF vars ((c :: t).drop (tok kv.1).length).length _
  have hL : 1 ≤ (tok kv.1).length := by rw [tok_length]; omega
  exact ssF_fuel vars t.length _ _
    (by simp only [List.length_drop, List.length_cons]; omega)
    (Nat.le_refl _)

theorem ss_neg {vars : List (Str × Str)} {c : Char} {t : Str}
    (hm : vars.find? (fun kv => leadsWith (tok kv.1) (c :: t)) = none) :
    simulSubst vars (c :: t) = c :: simulSubst vars t := by
  show ssF vars (t.length + 1) (c :: t) = _
  simp only [ssF]
  rw [hm]
  rfl

theorem ss_empty : ∀ s : Str, simulSubst [] s = s := by
  intro s
  induction s with
  | nil => rfl
  | cons c t ih =>
    rw [@ss_neg [] c t rfl, ih]

theorem ss_through (vars : List (Str × Str)) :
    ∀ {a : Str}, lb ∉ a → ∀ (u : Str),
      simulSubst vars (a ++ u) = a ++ simulSubst vars u := by
  intro a
  induction a with
  | nil => intro _ u; simp
  | cons x a2 ih =>
    intro ha u
    have hx : x ∈ x :: a2 := List.mem_cons_self x a2
    have hm : vars.find? (fun kv => leadsWith (tok kv.1) (x :: (a2 ++ u))) = none := by
      rw [List.find?_eq_none]
      intro kv hkv hlw
      obtain ⟨t2, he2, _⟩ := leadsWith_tok hlw
      simp only [List.cons.injEq] at he2
      exact ha (by rw [← he2.1]; exact hx)
    rw [List.cons_append, ss_neg hm]
    have ha2 : lb ∉ a2 := fun hm2 => ha (List.mem_cons_of_mem x hm2)
    rw [ih ha2 u]
    rfl

theorem keyInj {α : Type} {l : List (Str × α)} (hnd : (l.map Prod.fst).Nodup)
    {x e : Str × α} (hx : x ∈ l) (he : e ∈ l) (h : x.1 = e.1) : x = e := by
  induction l with
  | nil => cases hx
  | cons a rest ih =>
    rw [List.map_cons, List.nodup_cons] at hnd
    rcases List.mem_cons.mp hx with rfl | hx2
    · rcases List.mem_cons.mp he with rfl | he2
      · rfl
      · exfalso
        apply hnd.1
        rw [h]
        exact List.mem_map_of_mem Prod.fst he2
    · rcases List.mem_cons.mp he with rfl | he2
      · exfalso
        apply hnd.1
        rw [← h]
        exact List.mem_map_of_mem Prod.fst hx2
      · exact ih hnd.2 hx2 he2

theorem findTok_of_mem {vars : List (Str × Str)} (hnd : (vars.map Prod.fst).Nodup)
    {e : Str × Str} (he : e ∈ vars) {y : Str} (hy : leadsWith (tok e.1) y = true)
    (huniq : ∀ kv ∈ vars, leadsWith (tok kv.1) y = true → kv.1 = e.1) :
    vars.find? (fun kv => leadsWith (tok kv.1) y) = some e := by
  induction vars with
  | nil => cases he
  | cons a rest ih =>
    by_cases hpa : leadsWith (tok a.1) y = true
    · have hae : a.1 = e.1 := huniq a (List.mem_cons_self a rest) hpa
      have hEq : a = e := keyInj hnd (List.mem_cons_self a rest) he hae
      rw [@List.find?_cons_of_pos _ (fun kv => leadsWith (tok kv.1) y) a rest hpa, hEq]
    · have hne : a ≠ e := by
        intro hae
        rw [hae] at hpa
        exact hpa hy
      have he2 : e ∈ rest := by
        rcases List.mem_cons.mp he with h1 | h2
        · exact absurd h1.symm hne
        · exact h2
      rw [@List.find?_cons_of_neg _ (fun kv => leadsWith (tok kv.1) y) a rest (by simpa using hpa)]
      rw [List.map_cons, List.nodup_cons] at hnd
      exact ih hnd.2 he2
        (fun kv hkv hlw => huniq kv (List.mem_cons_of_mem a hkv) hlw)

theorem goodVars_tail {kv : Str × Str} {rest : List (Str × Str)}
    (H : goodVars (kv :: rest)) : goodVars rest := by
  obtain ⟨hnd, hall⟩ := H
  rw [List.map_cons, List.nodup_cons] at hnd
  refine ⟨hnd.2, ?_⟩
  intro kw hkw
  obtain ⟨h1, h2, h3, h4, h5⟩ := hall kw (List.mem_cons_of_mem kv hkw)
  exact ⟨h1, h2, h3, h4, fun kj hkj hne => h5 kj (List.mem_cons_of_mem kv hkj) hne⟩
theorem ss_pos_ne {vars : List (Str × Str)} {s : Str} (hs : s ≠ []) {kv : Str × Str}
    (hm : vars.find? (fun kw => leadsWith (tok kw.1) s) = some kv) :
    simulSubst vars s = kv.2 ++ simulSubst vars (s.drop (tok kv.1).length) := by
  cases s with
  | nil => exact absurd rfl hs
  | cons c t => exact ss_pos hm

theorem ssCore {kv : Str × Str} {rest : List (Str × Str)} (H : goodVars (kv :: rest)) :
    ∀ (n : Nat) (s : Str), s.length ≤ n →
      simulSubst (kv :: rest) s = simulSubst rest (replaceAll (tok kv.1) kv.2 s) := by
  obtain ⟨hnd, hall⟩ := H
  obtain ⟨hk1, hbk1, hv1, hbv1, hcross1⟩ := hall kv (List.mem_cons_self kv rest)
  have hndr : (rest.map Prod.fst).Nodup := by
    rw [List.map_cons, List.nodup_cons] at hnd
    exact hnd.2
  have hkvnotin : kv.1 ∉ rest.map Prod.fst := by
    rw [List.map_cons, List.nodup_cons] at hnd
    exact hnd.1
  have hkeyne : ∀ kj ∈ rest, kj.1 ≠ kv.1 := by
    intro kj hkj he
    exact hkvnotin (he ▸ List.mem_map_of_mem Prod.fst hkj)
  have hrestkeys : ∀ kw ∈ rest, kw.1 ≠ [] ∧ braceFree kw.1 := by
    intro kw hkw
    obtain ⟨h1, h2, _, _, _⟩ := hall kw (List.mem_cons_of_mem kv hkw)
    exact ⟨h1, h2⟩
  intro n
  induction n with
  | zero =>
    intro s hs
    have hz : s = [] := List.length_eq_zero.mp (Nat.le_zero.mp hs)
    subst hz
    rfl
  | succ n ih =>
    intro s hs
    cases s with
    | nil => rfl
    | cons c t =>
      cases hm : leadsWith (tok kv.1) (c :: t) with
      | true =>
        have hfind : (kv :: rest).find? (fun kw => leadsWith (tok kw.1) (c :: t)) = some kv :=
          @List.find?_cons_of_pos _ (fun kw => leadsWith (tok kw.1) (c :: t)) kv rest hm
        rw [ss_pos hfind, replaceAll_pos kv.2 (tok_ne_nil kv.1) hm,
          ss_through rest hbv1.1 _]
        refine congrArg (kv.2 ++ ·) ?_
        apply ih
        have hL : 1 ≤ (tok kv.1).length := by rw [tok_length]; omega
        simp only [List.length_drop, List.length_cons]
        simp only [List.length_cons] at hs
        omega
      | false =>
        cases hr : rest.find? (fun kw => leadsWith (tok kw.1) (c :: t)) with
        | some kw =>
          have hkwmem : kw ∈ rest :=
            @List.mem_of_find?_eq_some _ (fun kw2 => leadsWith (tok kw2.1) (c :: t)) kw rest hr
          have hlwkw : leadsWith (tok kw.1) (c :: t) = true :=
            @List.find?_some _ (fun kw2 => leadsWith (tok kw2.1) (c :: t)) kw rest hr
          obtain ⟨hkwne, hkwbf⟩ := hrestkeys kw hkwmem
          have hfind : (kv :: rest).find? (fun kw2 => leadsWith (tok kw2.1) (c :: t)) = some kw := by
            rw [@List.find?_cons_of_neg _ (fun kw2 => leadsWith (tok kw2.1) (c :: t)) kv rest
              (by simp [hm])]
            exact hr
          rw [ss_pos hfind]
          have hskip : ∀ j, j < (tok kw.1).length →
              leadsWith (tok kv.1) ((c :: t).drop j) = false := by
            intro j hj
            cases j with
            | zero => simpa using hm
            | succ j2 => exact tokShift hkwbf hlwkw (Nat.succ_pos j2) hj
          rw [replaceAll_skip kv.2 (tok kw.1).length (c :: t) hskip, leadsWith_take hlwkw]
          have hfind2 : rest.find? (fun kw2 => leadsWith (tok kw2.1)
              (tok kw.1 ++ replaceAll (tok kv.1) kv.2 ((c :: t).drop (tok kw.1).length)))
              = some kw := by
            apply findTok_of_mem hndr hkwmem (leadsWith_intro _ _)
            intro kj hkj hlwj
            obtain ⟨_, hbfj⟩ := hrestkeys kj hkj
            exact tokOfTokAppend hbfj.2 hkwbf.2 hlwj
          have htokne : tok kw.1 ++ replaceAll (tok kv.1) kv.2 ((c :: t).drop (tok kw.1).length) ≠ [] := by
            simp [tok]
          rw [ss_pos_ne htokne hfind2, List.drop_left]
          refine congrArg (kw.2 ++ ·) ?_
          apply ih
          have hL : 1 ≤ (tok kw.1).length := by rw [tok_length]; omega
          simp only [List.length_drop, List.length_cons]
          simp only [List.length_cons] at hs
          omega
        | none =>
          have hfind : (kv :: rest).find? (fun kw2 => leadsWith (tok kw2.1) (c :: t)) = none := by
            rw [@List.find?_cons_of_neg _ (fun kw2 => leadsWith (tok kw2.1) (c :: t)) kv rest
              (by simp [hm])]
            exact hr
          rw [ss_neg hfind, replaceAll_neg (tok kv.1) kv.2 hm]
          have hfind2 : rest.find? (fun kw2 => leadsWith (tok kw2.1)
              (c :: replaceAll (tok kv.1) kv.2 t)) = none := by
            rw [List.find?_eq_none]
            intro kj hkj hlwj
            obtain ⟨hkjne, hkjbf⟩ := hrestkeys kj hkj
            have heq : (c :: replaceAll (tok kv.1) kv.2 t) =
                replaceAll (tok kv.1) kv.2 (c :: t) :=
              (replaceAll_neg (tok kv.1) kv.2 hm).symm
            rw [heq] at hlwj
            have h0 : 0 < (tok kj.1).length := by rw [tok_length]; omega
            have hback := noNewTok (tok_ne_nil kv.1) hbv1.2
              (hcross1 kj (List.mem_cons_of_mem kv hkj) (hkeyne kj hkj))
              (c :: t) 0 h0 hlwj
            rw [List.drop_zero] at hback
            exact (List.find?_eq_none.mp hr kj hkj) hback
          rw [ss_neg hfind2]
          refine congrArg (c :: ·) ?_
          apply ih
          simp only [List.length_cons] at hs
          omega

theorem substVars_eq_simul : ∀ {vars : List (Str × Str)}, goodVars vars →
    ∀ s : Str, substVars vars s = simulSubst vars s := by
  intro vars
  induction vars with
  | nil =>
    intro _ s
    rw [ss_empty]
    rfl
  | cons kv rest ih =>
    intro H s
    show substVars rest (replaceAll (tok kv.1) kv.2 s) = _
    rw [ih (goodVars_tail H) _, ssCore H s.length s (Nat.le_refl _)]
theorem ssSwap {a b : Str × Str} (hne : a.1 ≠ b.1)
    (hba : braceFree a.1) (hbb : braceFree b.1) :
    ∀ (n : Nat) (s : Str), s.length ≤ n →
      simulSubst [a, b] s = simulSubst [b, a] s := by
  intro n
  induction n with
  | zero =>
    intro s hs
    have hz : s = [] := List.length_eq_zero.mp (Nat.le_zero.mp hs)
    subst hz
    rfl
  | succ n ih =>
    intro s hs
    cases s with
    | nil => rfl
    | cons c t =>
      have hlen : ∀ k : Str, 1 ≤ (tok k).length := by
        intro k; rw [tok_length]; omega
      cases hpa : leadsWith (tok a.1) (c :: t) with
      | true =>
        cases hpb : leadsWith (tok b.1) (c :: t) with
        | true => exact absurd (tokNoOverlapBoth hba.2 hbb.2 hpa hpb) hne
        | false =>
          have h1 : ([a, b]).find? (fun kw => leadsWith (tok kw.1) (c :: t)) = some a :=
            @List.find?_cons_of_pos _ (fun kw => leadsWith (tok kw.1) (c :: t)) a [b] hpa
          have h2 : ([b, a]).find? (fun kw => leadsWith (tok kw.1) (c :: t)) = some a := by
            rw [@List.find?_cons_of_neg _ (fun kw => leadsWith (tok kw.1) (c :: t)) b [a]
              (by simp [hpb])]
            exact @List.find?_cons_of_pos _ (fun kw => leadsWith (tok kw.1) (c :: t)) a [] hpa
          rw [ss_pos h1, ss_pos h2]
          refine congrArg (a.2 ++ ·) (ih _ ?_)
          have := hlen a.1
          simp only [List.length_drop, List.length_cons]
          simp only [List.length_cons] at hs
          omega
      | false =>
        cases hpb : leadsWith (tok b.1) (c :: t) with
        | true =>
          have h1 : ([a, b]).find? (fun kw => leadsWith (tok kw.1) (c :: t)) = some b := by
            rw [@List.find?_cons_of_neg _ (fun kw => leadsWith (tok kw.1) (c :: t)) a [b]
              (by simp [hpa])]
            exact @List.find?_cons_of_pos _ (fun kw => leadsWith (tok kw.1) (c :: t)) b [] hpb
          have h2 : ([b, a]).find? (fun kw => leadsWith (tok kw.1) (c :: t)) = some b :=
            @List.find?_cons_of_pos _ (fun kw => leadsWith (tok kw.1) (c :: t)) b [a] hpb
          rw [ss_pos h1, ss_pos h2]
          refine congrArg (b.2 ++ ·) (ih _ ?_)
          have := hlen b.1
          simp only [List.length_drop, List.length_cons]
          simp only [List.length_cons] at hs
          omega
        | false =>
          have h1 : ([a, b]).find? (fun kw => leadsWith (tok kw.1) (c :: t)) = none := by
            rw [@List.find?_cons_of_neg _ (fun kw => leadsWith (tok kw.1) (c :: t)) a [b]
              (by simp [hpa])]
            rw [@List.find?_cons_of_neg _ (fun kw => leadsWith (tok kw.1) (c :: t)) b []
              (by simp [hpb])]
            rfl
          have h2 : ([b, a]).find? (fun kw => leadsWith (tok kw.1) (c :: t)) = none := by
            rw [@List.find?_cons_of_neg _ (fun kw => leadsWith (tok kw.1) (c :: t)) b [a]
              (by simp [hpb])]
            rw [@List.find?_cons_of_neg _ (fun kw => leadsWith (tok kw.1) (c :: t)) a []
              (by simp [hpa])]
            rfl
          rw [ss_neg h1, ss_neg h2]
          refine congrArg (c :: ·) (ih t ?_)
          simp only [List.length_cons] at hs
          omega

theorem replaceTwoComm {k1 k2 v1 v2 : Str} (hk : k1 ≠ k2)
    (hk1ne : k1 ≠ []) (hbk1 : braceFree k1) (hk2ne : k2 ≠ []) (hbk2 : braceFree k2)
    (hv1 : v1 ≠ []) (hbv1 : braceFree v1) (hv2 : v2 ≠ []) (hbv2 : braceFree v2)
    (hx1 : ∃ c ∈ v1, c ∉ tok k2) (hx2 : ∃ c ∈ v2, c ∉ tok k1) (s : Str) :
    replaceAll (tok k2) v2 (replaceAll (tok k1) v1 s) =
      replaceAll (tok k1) v1 (replaceAll (tok k2) v2 s) := by
  have hgv : goodVars [(k1, v1), (k2, v2)] := by
    refine ⟨by simp [hk], ?_⟩
    intro kv hkv
    rcases List.mem_cons.mp hkv with rfl | hkv2
    · refine ⟨hk1ne, hbk1, hv1, hbv1, ?_⟩
      intro kw hkw hne2
      rcases List.mem_cons.mp hkw with rfl | hkw2
      · exact absurd rfl hne2
      · rcases List.mem_cons.mp hkw2 with rfl | hkw3
        · exact hx1
        · cases hkw3
    · rcases List.mem_cons.mp hkv2 with rfl | hkv3
      · refine ⟨hk2ne, hbk2, hv2, hbv2, ?_⟩
        intro kw hkw hne2
        rcases List.mem_cons.mp hkw with rfl | hkw2
        · exact hx2
        · rcases List.mem_cons.mp hkw2 with rfl | hkw3
          · exact absurd rfl hne2
          · cases hkw3
      · cases hkv3
  have hgv2 : goodVars [(k2, v2), (k1, v1)] := by
    refine ⟨by simp [Ne.symm hk], ?_⟩
    intro kv hkv
    rcases List.mem_cons.mp hkv with rfl | hkv2
    · refine ⟨hk2ne, hbk2, hv2, hbv2, ?_⟩
      intro kw hkw hne2
      rcases List.mem_cons.mp hkw with rfl | hkw2
      · exact absurd rfl hne2
      · rcases List.mem_cons.mp hkw2 with rfl | hkw3
        · exact hx2
        · cases hkw3
    · rcases List.mem_cons.mp hkv2 with rfl | hkv3
      · refine ⟨hk1ne, hbk1, hv1, hbv1, ?_⟩
        intro kw hkw hne2
        rcases List.mem_cons.mp hkw with rfl | hkw2
        · exact hx1
        · rcases List.mem_cons.mp hkw2 with rfl | hkw3
          · exact absurd rfl hne2
          · cases hkw3
      · cases hkv3
  calc replaceAll (tok k2) v2 (replaceAll (tok k1) v1 s)
      = substVars [(k1, v1), (k2, v2)] s := rfl
    _ = simulSubst [(k1, v1), (k2, v2)] s := substVars_eq_simul hgv s
    _ = simulSubst [(k2, v2), (k1, v1)] s := ssSwap hk hbk1 hbk2 s.length s (Nat.le_refl _)
    _ = substVars [(k2, v2), (k1, v1)] s := (substVars_eq_simul hgv2 s).symm
    _ = replaceAll (tok k1) v1 (replaceAll (tok k2) v2 s) := rfl
/-! ## Error classification: which failures each operation can produce -/

theorem ebind_err {α β : Type} {x : Except Err α} {f : α → Except Err β} {e : Err}
    (h : ebind x f = .error e) :
    x = .error e ∨ ∃ a, x = .ok a ∧ f a = .error e := by
  cases x with
  | error e2 =>
    simp only [ebind] at h
    have he : e2 = e := Except.error.inj h
    subst he
    exact Or.inl rfl
  | ok a => simp only [ebind] at h; exact Or.inr ⟨a, rfl, h⟩

theorem ebind_ok {α β : Type} (a : α) (f : α → Except Err β) :
    ebind (.ok a) f = f a := by simp only [ebind]

theorem ebind_error {α β : Type} (e : Err) (f : α → Except Err β) :
    ebind (.error e) f = .error e := by simp only [ebind]

theorem getFieldErr {j : Json} {k : Str} {e : Err} (h : Json.getField j k = .error e) :
    ∃ k2, e = .missingField k2 := by
  cases j with
  | obj fs =>
    simp only [Json.getField] at h
    cases hl : lookupStr fs k with
    | some v => rw [hl] at h; simp at h
    | none => rw [hl] at h; exact ⟨k, (Except.error.inj h).symm⟩
  | str s => exact ⟨k, (Except.error.inj h).symm⟩
  | arr xs => exact ⟨k, (Except.error.inj h).symm⟩

theorem asStrErr {j : Json} {e : Err} (h : Json.asStr j = .error e) :
    ∃ k2, e = .missingField k2 := by
  cases j with
  | str s => simp [Json.asStr] at h
  | arr xs => exact ⟨_, (Except.error.inj h).symm⟩
  | obj fs => exact ⟨_, (Except.error.inj h).symm⟩

theorem asObjErr {j : Json} {e : Err} (h : Json.asObj j = .error e) :
    ∃ k2, e = .missingField k2 := by
  cases j with
  | obj fs => simp [Json.asObj] at h
  | arr xs => exact ⟨_, (Except.error.inj h).symm⟩
  | str s => exact ⟨_, (Except.error.inj h).symm⟩

theorem asArrErr {j : Json} {e : Err} (h : Json.asArr j = .error e) :
    ∃ k2, e = .missingField k2 := by
  cases j with
  | arr xs => simp [Json.asArr] at h
  | obj fs => exact ⟨_, (Except.error.inj h).symm⟩
  | str s => exact ⟨_, (Except.error.inj h).symm⟩

theorem getArchiveErr {j : Json} {e : Err} (h : getArchive j = .error e) :
    ∃ k2, e = .missingField k2 := by
  cases j with
  | obj fs =>
    simp only [getArchive] at h
    cases hl : lookupStr fs (str "archive") with
    | some v => rw [hl] at h; simp at h
    | none => rw [hl] at h; simp at h
  | str s => exact ⟨_, (Except.error.inj h).symm⟩
  | arr xs => exact ⟨_, (Except.error.inj h).symm⟩

theorem buildRowErr {p : Str} {d : Json} {platform : Str} {dj : Json} {e : Err}
    (h : buildRow p d platform dj = .error e) : ∃ k2, e = .missingField k2 := by
  unfold buildRow at h
  rcases ebind_err h with h1 | ⟨fn, _, h2⟩
  · rcases ebind_err h1 with h3 | ⟨j, _, h4⟩
    · exact getFieldErr h3
    · exact asStrErr h4
  · rcases ebind_err h2 with h3 | ⟨sz, _, h4⟩
    · rcases ebind_err h3 with h5 | ⟨j, _, h6⟩
      · exact getFieldErr h5
      · exact asStrErr h6
    · rcases ebind_err h4 with h5 | ⟨ver, _, h6⟩
      · rcases ebind_err h5 with h7 | ⟨j, _, h8⟩
        · rcases ebind_err h7 with h9 | ⟨j2, _, h10⟩
          · exact getFieldErr h9
          · exact getFieldErr h10
        · exact asStrErr h8
      · cases h6

theorem buildRowsErr {p : Str} {d : Json} :
    ∀ {l : List (Str × Json)} {e : Err},
      buildRows p d l = .error e → ∃ k2, e = .missingField k2 := by
  intro l
  induction l with
  | nil => intro e h; cases h
  | cons kd rest ih =>
    intro e h
    obtain ⟨k, dj⟩ := kd
    unfold buildRows at h
    cases hl : lookupStr platformInfo k with
    | some pi =>
      rw [hl] at h
      rcases ebind_err h with h1 | ⟨row, _, h2⟩
      · exact buildRowErr h1
      · rcases ebind_err h2 with h3 | ⟨rows, _, h4⟩
        · exact ih h3
        · cases h4
    | none =>
      rw [hl] at h
      exact ih h

theorem rowsStringOfErr {p : Str} {d : Json} {e : Err}
    (h : rowsStringOf p d = .error e) : ∃ k2, e = .missingField k2 := by
  unfold rowsStringOf at h
  rcases ebind_err h with h1 | ⟨dls, _, h2⟩
  · rcases ebind_err h1 with h3 | ⟨l, _, h4⟩
    · exact getFieldErr h3
    · exact getFieldErr h4
  · rcases ebind_err h2 with h3 | ⟨fs, _, h4⟩
    · exact asObjErr h3
    · rcases ebind_err h4 with h5 | ⟨rows, _, h6⟩
      · exact buildRowsErr h5
      · cases h6

theorem buildHistErr {p : Str} :
    ∀ {l : List Json} {e : Err},
      buildHist p l = .error e → ∃ k2, e = .missingField k2 := by
  intro l
  induction l with
  | nil => intro e h; cases h
  | cons j rest ih =>
    intro e h
    unfold buildHist at h
    rcases ebind_err h with h1 | ⟨ver, _, h2⟩
    · rcases ebind_err h1 with h3 | ⟨jv, _, h4⟩
      · exact getFieldErr h3
      · exact asStrErr h4
    · rcases ebind_err h2 with h3 | ⟨url, _, h4⟩
      · rcases ebind_err h3 with h5 | ⟨ju, _, h6⟩
        · exact getFieldErr h5
        · exact asStrErr h6
      · rcases ebind_err h4 with h5 | ⟨items, _, h6⟩
        · exact ih h5
        · cases h6

theorem historyStringOfErr {p : Str} {d : Json} {e : Err}
    (h : historyStringOf p d = .error e) : ∃ k2, e = .missingField k2 := by
  unfold historyStringOf at h
  rcases ebind_err h with h1 | ⟨a, _, h2⟩
  · exact getArchiveErr h1
  · cases ht : a.truthy with
    | true =>
      rw [ht] at h2
      rw [if_pos rfl] at h2
      rcases ebind_err h2 with h3 | ⟨xs, _, h4⟩
      · exact asArrErr h3
      · rcases ebind_err h4 with h5 | ⟨items, _, h6⟩
        · exact buildHistErr h5
        · cases h6
    | false =>
      rw [ht] at h2
      rw [if_neg (by simp)] at h2
      cases h2

theorem expandRowsErr {p : Str} {d : Json} {c : Str} {e : Err}
    (h : expandRows p d c = .error e) : ∃ k2, e = .missingField k2 := by
  unfold expandRows at h
  cases hc : occursIn tokDR c with
  | true =>
    rw [hc, if_pos rfl] at h
    rcases ebind_err h with h1 | ⟨rs, _, h2⟩
    · exact rowsStringOfErr h1
    · cases h2
  | false =>
    rw [hc, if_neg (by simp)] at h
    cases h

theorem expandVHErr {p : Str} {d : Json} {c : Str} {e : Err}
    (h : expandVH p d c = .error e) : ∃ k2, e = .missingField k2 := by
  unfold expandVH at h
  cases hc : occursIn tokVH c with
  | true =>
    rw [hc, if_pos rfl] at h
    rcases ebind_err h with h1 | ⟨hs, _, h2⟩
    · exact historyStringOfErr h1
    · cases h2
  | false =>
    rw [hc, if_neg (by simp)] at h
    cases h

theorem genSomeErr {p c : Str} {d : Json} {vars : List (Str × Str)} {e : Err}
    (h : generateContent p (some c) d vars = .error e) : ∃ k2, e = .missingField k2 := by
  unfold generateContent at h
  rcases ebind_err h with h1 | ⟨c1, _, h2⟩
  · exact expandRowsErr h1
  · exact expandVHErr h2

theorem buildVariablesErr {d : Json} {e : Err}
    (h : buildVariables d = .error e) : ∃ k2, e = .missingField k2 := by
  unfold buildVariables at h
  rcases ebind_err h with h1 | ⟨v, _, h2⟩
  · rcases ebind_err h1 with h3 | ⟨j, _, h4⟩
    · rcases ebind_err h3 with h5 | ⟨j2, _, h6⟩
      · exact getFieldErr h5
      · exact getFieldErr h6
    · exact asStrErr h4
  · rcases ebind_err h2 with h3 | ⟨rd, _, h4⟩
    · rcases ebind_err h3 with h5 | ⟨j, _, h6⟩
      · rcases ebind_err h5 with h7 | ⟨j2, _, h8⟩
        · exact getFieldErr h7
        · exact getFieldErr h8
      · exact asStrErr h6
    · rcases ebind_err h4 with h5 | ⟨gu, _, h6⟩
      · rcases ebind_err h5 with h7 | ⟨j, _, h8⟩
        · rcases ebind_err h7 with h9 | ⟨j2, _, h10⟩
          · exact getFieldErr h9
          · exact getFieldErr h10
        · exact asStrErr h8
      · rcases ebind_err h6 with h7 | ⟨cu, _, h8⟩
        · rcases ebind_err h7 with h9 | ⟨j, _, h10⟩
          · rcases ebind_err h9 with h11 | ⟨j2, _, h12⟩
            · rcases ebind_err h11 with h13 | ⟨j3, _, h14⟩
              · exact getFieldErr h13
              · exact getFieldErr h14
            · exact getFieldErr h12
          · exact asStrErr h10
        · cases h8

theorem genNotDataNF {p : Str} {t : Option Str} {d : Json} {vars : List (Str × Str)} {e : Err}
    (h : generateContent p t d vars = .error e) : e ≠ .dataNotFound := by
  cases t with
  | none =>
    unfold generateContent at h
    rw [← Except.error.inj h]
    intro hc
    cases hc
  | some c =>
    obtain ⟨k2, rfl⟩ := genSomeErr h
    intro hc
    cases hc
/-! ## The template path enters the renderer only through `isHtml` -/

theorem rowText_inv {p1 p2 : Str} (h : isHtml p1 = isHtml p2)
    (platform size ver fn : Str) :
    rowText p1 platform size ver fn = rowText p2 platform size ver fn := by
  unfold rowText
  rw [h]

theorem buildRow_inv {p1 p2 : Str} (h : isHtml p1 = isHtml p2)
    (d : Json) (platform : Str) (dj : Json) :
    buildRow p1 d platform dj = buildRow p2 d platform dj := by
  unfold buildRow
  simp only [rowText_inv h]

theorem buildRows_inv {p1 p2 : Str} (h : isHtml p1 = isHtml p2) (d : Json) :
    ∀ l : List (Str × Json), buildRows p1 d l = buildRows p2 d l := by
  intro l
  induction l with
  | nil => rfl
  | cons kd rest ih =>
    obtain ⟨k, dj⟩ := kd
    unfold buildRows
    cases hl : lookupStr platformInfo k with
    | some pi => simp only [buildRow_inv h d pi.1 dj, ih]
    | none => simpa using ih

theorem rowsStringOf_inv {p1 p2 : Str} (h : isHtml p1 = isHtml p2) (d : Json) :
    rowsStringOf p1 d = rowsStringOf p2 d := by
  unfold rowsStringOf
  simp only [buildRows_inv h d]

theorem expandRows_inv {p1 p2 : Str} (h : isHtml p1 = isHtml p2) (d : Json) (c : Str) :
    expandRows p1 d c = expandRows p2 d c := by
  unfold expandRows
  simp only [rowsStringOf_inv h d]

theorem histItem_inv {p1 p2 : Str} (h : isHtml p1 = isHtml p2) (ver url : Str) :
    histItem p1 ver url = histItem p2 ver url := by
  unfold histItem
  rw [h]

theorem buildHist_inv {p1 p2 : Str} (h : isHtml p1 = isHtml p2) :
    ∀ l : List Json, buildHist p1 l = buildHist p2 l := by
  intro l
  induction l with
  | nil => rfl
  | cons j rest ih =>
    unfold buildHist
    simp only [histItem_inv h, ih]

theorem histContainer_inv {p1 p2 : Str} (h : isHtml p1 = isHtml p2) (items : List Str) :
    histContainer p1 items = histContainer p2 items := by
  unfold histContainer
  rw [h]

theorem fallbackFor_inv {p1 p2 : Str} (h : isHtml p1 = isHtml p2) :
    fallbackFor p1 = fallbackFor p2 := by
  unfold fallbackFor
  rw [h]

theorem historyStringOf_inv {p1 p2 : Str} (h : isHtml p1 = isHtml p2) (d : Json) :
    historyStringOf p1 d = historyStringOf p2 d := by
  unfold historyStringOf
  simp only [buildHist_inv h, histContainer_inv h, fallbackFor_inv h]

theorem expandVH_inv {p1 p2 : Str} (h : isHtml p1 = isHtml p2) (d : Json) (c : Str) :
    expandVH p1 d c = expandVH p2 d c := by
  unfold expandVH
  simp only [historyStringOf_inv h d]

/-! ## Splitting the joined history text back into lines -/

theorem splitOnNl_nomem : ∀ {b : Str}, nl ∉ b → splitOnNl b = [b] := by
  intro b
  induction b with
  | nil => intro _; rfl
  | cons c t ih =>
    intro h
    have hc : c ≠ nl := fun he => h (he ▸ List.mem_cons_self c t)
    have ht : nl ∉ t := fun hm => h (List.mem_cons_of_mem c hm)
    unfold splitOnNl
    simp only [ih ht, if_neg hc]

theorem splitOnNl_pre : ∀ {a : Str}, nl ∉ a → ∀ {s : Str} {r : Str} {rs : List Str},
    splitOnNl s = r :: rs → splitOnNl (a ++ s) = (a ++ r) :: rs := by
  intro a
  induction a with
  | nil => intro _ s r rs h; simpa using h
  | cons c a2 ih =>
    intro ha s r rs h
    have hc : c ≠ nl := fun he => ha (he ▸ List.mem_cons_self c a2)
    have ha2 : nl ∉ a2 := fun hm => ha (List.mem_cons_of_mem c hm)
    rw [List.cons_append]
    unfold splitOnNl
    simp only [ih ha2 h, if_neg hc]
    simp

theorem splitOnNl_two {a b : Str} (ha : nl ∉ a) (hb : nl ∉ b) :
    splitOnNl (a ++ nl :: b) = [a, b] := by
  have h1 : splitOnNl (nl :: b) = [] :: [b] := by
    unfold splitOnNl
    simp [splitOnNl_nomem hb]
  have h2 := splitOnNl_pre ha h1
  simpa using h2
/-! ## Closed forms of the two expansions -/

theorem expandVH_fallback {p c : Str} {d : Json} (ha : getArchive d = .ok (.arr []))
    (hc : occursIn tokVH c = true) :
    expandVH p d c = .ok (replaceAll tokVH (fallbackFor p) c) := by
  have hh : historyStringOf p d = .ok (fallbackFor p) := by
    unfold historyStringOf
    rw [ha]
    rfl
  unfold expandVH
  rw [hc, if_pos rfl, hh]
  rfl

theorem fallbackFor_ne (p : Str) : fallbackFor p ≠ [] := by
  unfold fallbackFor
  cases hh : isHtml p with
  | true => rw [if_pos rfl]; decide
  | false => rw [if_neg (by simp)]; decide

theorem expandRows_closed {p : Str} {d : Json} {rs : Str}
    (hr : rowsStringOf p d = .ok rs) (u : Str) :
    expandRows p d u = .ok (replaceAll tokDR rs u) := by
  unfold expandRows
  cases hoc : occursIn tokDR u with
  | true => rw [if_pos rfl, hr]; rfl
  | false => rw [if_neg (by simp), replaceAll_id hoc]

theorem expandVH_closed {p : Str} {d : Json} {hs : Str}
    (hh : historyStringOf p d = .ok hs) (u : Str) :
    expandVH p d u = .ok (replaceAll tokVH hs u) := by
  unfold expandVH
  cases hoc : occursIn tokVH u with
  | true => rw [if_pos rfl, hh]; rfl
  | false => rw [if_neg (by simp), replaceAll_id hoc]

theorem getField_cons_hit (k : Str) (v : Json) (rest : List (Str × Json)) :
    Json.getField (.obj ((k, v) :: rest)) k = .ok v := by
  simp [Json.getField, lookupStr]

theorem getField_cons_miss (k k2 : Str) (v : Json) (rest : List (Str × Json))
    (hne : k ≠ k2) :
    Json.getField (.obj ((k, v) :: rest)) k2 = Json.getField (.obj rest) k2 := by
  simp [Json.getField, lookupStr, if_neg hne]

theorem buildHist_cons (p : Str) (e : Json) (rest : List Json) {ver url : Str}
    (h1 : Json.getField e (str "version") = .ok (.str ver))
    (h2 : Json.getField e (str "github_release_url") = .ok (.str url))
    {items : List Str} (h3 : buildHist p rest = .ok items) :
    buildHist p (e :: rest) = .ok (histItem p ver url :: items) := by
  unfold buildHist
  rw [h1]
  simp only [ebind_ok, Json.asStr]
  rw [h2]
  simp only [ebind_ok, Json.asStr]
  rw [h3]
  simp only [ebind_ok]

theorem nl_not_in_mdItem {v u : Str} (hv : nl ∉ v) (hu : nl ∉ u) :
    nl ∉ str "- [Version " ++ v ++ str "](" ++ u ++ str ")" := by
  intro hm
  simp only [List.mem_append] at hm
  rcases hm with (((hm | hm) | hm) | hm) | hm
  · exact absurd hm (by decide)
  · exact hv hm
  · exact absurd hm (by decide)
  · exact hu hm
  · exact absurd hm (by decide)
theorem buildRows_cons_none {p : Str} {d : Json} {k : Str} {dj : Json}
    {rest : List (Str × Json)} (hl : lookupStr platformInfo k = none) :
    buildRows p d ((k, dj) :: rest) = buildRows p d rest := by
  simp only [buildRows, hl]

theorem buildRows_cons_some {p : Str} {d : Json} {k : Str} {dj : Json}
    {rest : List (Str × Json)} {pi : Str × Str}
    (hl : lookupStr platformInfo k = some pi) :
    buildRows p d ((k, dj) :: rest) =
      ebind (buildRow p d pi.1 dj) fun row =>
      ebind (buildRows p d rest) fun rows => .ok (row :: rows) := by
  simp only [buildRows, hl]

/-! ## The claims -/

/-- C1 (counterexample): the claim "rendering replaces every literal
occurrence of `{{KEY}}` with the corresponding value, and any `{{NAME}}`
token with no entry remains verbatim" fails as stated: because the
passes run sequentially, a replacement value that itself spells another
variable's token is replaced again.  With `variables = {A: "{{B}}",
B: "y"}` the template `{{A}}` renders to `"y"`, not to A's value
`{{B}}` — which is what the one-pass specification reading
(`simulSubst`, replace each known token, copy everything else verbatim)
produces. -/
theorem claim1_counterexample :
    substVars [(str "A", tok (str "B")), (str "B", str "y")] (tok (str "A")) = str "y" ∧
    simulSubst [(str "A", tok (str "B")), (str "B", str "y")] (tok (str "A")) = tok (str "B") ∧
    substVars [(str "A", tok (str "B")), (str "B", str "y")] (tok (str "A")) ≠
      simulSubst [(str "A", tok (str "B")), (str "B", str "y")] (tok (str "A")) :=
  ⟨by decide, by decide, by decide⟩

/-- C1 (amended): provided the variables mapping is non-interfering —
keys distinct, non-empty and brace-free, every value non-empty,
brace-free, and containing a character outside every other variable's
token, so no replacement can create or complete another token — the
sequential rendering `substVars` agrees exactly with the specification
reading `simulSubst`: every literal occurrence of each `{{KEY}}` is
replaced by its value, every other character (including any `{{NAME}}`
token with no entry in the mapping) is kept verbatim, and no error is
raised (both functions are total). -/
theorem claim1_amended {vars : List (Str × Str)} (H : goodVars vars) (s : Str) :
    substVars vars s = simulSubst vars s :=
  substVars_eq_simul H s

set_option maxRecDepth 40000 in
/-- Witness for C1 at the realistic four-variable mapping of `main` and
a template holding two known tokens and one unknown token. -/
theorem claim1_witness :
    goodVars varsDemo ∧
      substVars varsDemo (tok (str "LATEST_VERSION") ++ str " released " ++
        tok (str "RELEASE_DATE") ++ str " " ++ tok (str "UNKNOWN_TOKEN")) =
      simulSubst varsDemo (tok (str "LATEST_VERSION") ++ str " released " ++
        tok (str "RELEASE_DATE") ++ str " " ++ tok (str "UNKNOWN_TOKEN")) :=
  ⟨by decide, claim1_amended (by decide) _⟩

set_option maxRecDepth 40000 in
/-- C2: for the downloads mapping `{"macos_arm64": {filename:
"Vault.dmg", size: "10 MB"}}` with latest version `"1.2.0"`, the
rendered HTML download row contains the literal URL
`https://github.com/barqly/barqly-vault/releases/download/v1.2.0/Vault.dmg`. -/
theorem claim2_html_row_url :
    resultContains
      (generateContent htmlPath (some (tok (str "DOWNLOAD_ROWS"))) dataFull varsDemo)
      (str "https://github.com/barqly/barqly-vault/releases/download/v1.2.0/Vault.dmg")
      = true := by
  decide

/-- C3: the download-rows loop renders only the keys present in the
fixed `platform_info` table: the rows (and the errors) produced from any
`downloads` mapping are exactly those produced from the mapping with all
unknown keys removed, so an unknown key (e.g. `"solaris_sparc"`) yields
no row and no error — its value is never even inspected. -/
theorem claim3_unknown_keys_skipped (p : Str) (d : Json) (l : List (Str × Json)) :
    buildRows p d l =
      buildRows p d (l.filter (fun kd => (lookupStr platformInfo kd.1).isSome)) := by
  induction l with
  | nil => rfl
  | cons kd rest ih =>
    obtain ⟨k, dj⟩ := kd
    cases hl : lookupStr platformInfo k with
    | some pi =>
      rw [List.filter_cons_of_pos (by simp [hl]),
        buildRows_cons_some hl, buildRows_cons_some hl]
      simp only [ih]
    | none =>
      rw [List.filter_cons_of_neg (by simp [hl]), buildRows_cons_none hl]
      exact ih

/-- C4: when the archive list is empty, a template containing
`{{VERSION_HISTORY}}` renders with the token replaced by the defined
format-specific fallback text, which is non-empty, and no error is
raised. -/
theorem claim4_empty_archive_fallback (p c : Str) (d : Json)
    (ha : getArchive d = .ok (.arr [])) (hc : occursIn tokVH c = true) :
    expandVH p d c = .ok (replaceAll tokVH (fallbackFor p) c) ∧ fallbackFor p ≠ [] :=
  ⟨expandVH_fallback ha hc, fallbackFor_ne p⟩

/-- Witness for C4: the HTML template path with an explicitly empty
archive list. -/
theorem claim4_witness :
    expandVH htmlPath (Json.obj [(str "archive", Json.arr [])]) tokVH =
        .ok (replaceAll tokVH (fallbackFor htmlPath) tokVH) ∧
      fallbackFor htmlPath ≠ [] :=
  claim4_empty_archive_fallback htmlPath tokVH (Json.obj [(str "archive", Json.arr [])])
    (by rfl) (by decide)

set_option maxRecDepth 40000 in
/-- C5 (counterexample): the claim says a missing `archive` field
propagates as a lookup failure (`MissingField`); in the code
`data.get('archive', [])` silently defaults a missing `archive` to the
empty list, so rendering a `{{VERSION_HISTORY}}` template against a
record with no `archive` key succeeds with the fallback text and raises
nothing. -/
theorem claim5_counterexample :
    generateContent mdPath (some tokVH) dataFull varsDemo = .ok (fallbackFor mdPath) := by
  decide

/-- C5 (amended): every failure of the variables construction or of
rendering an existing template is a `MissingField`-style lookup failure
(no other validation is performed), and a missing nested field that is
looked up — e.g. `latest.version` — does propagate as `MissingField`;
however a missing `archive` field does not fail: it defaults to the
empty list and the version-history section renders the fallback text. -/
theorem claim5_amended :
    (∀ (d : Json) (e : Err), buildVariables d = .error e → ∃ k, e = .missingField k) ∧
    (∀ (p c : Str) (d : Json) (vars : List (Str × Str)) (e : Err),
      generateContent p (some c) d vars = .error e → ∃ k, e = .missingField k) ∧
    (∀ (fs l : List (Str × Json)),
      lookupStr fs (str "latest") = some (.obj l) →
      lookupStr l (str "version") = none →
      buildVariables (.obj fs) = .error (.missingField (str "version"))) ∧
    (∀ (fs : List (Str × Json)) (p c : Str),
      lookupStr fs (str "archive") = none → occursIn tokVH c = true →
      expandVH p (.obj fs) c = .ok (replaceAll tokVH (fallbackFor p) c)) := by
  refine ⟨fun d e h => buildVariablesErr h, fun p c d vars e h => genSomeErr h, ?_, ?_⟩
  · intro fs l h1 h2
    have hga : Json.getField (.obj fs) (str "latest") = .ok (.obj l) := by
      simp only [Json.getField, h1]
    have hgv : Json.getField (.obj l) (str "version") =
        .error (.missingField (str "version")) := by
      simp only [Json.getField, h2]
    unfold buildVariables
    simp only [hga, ebind_ok, hgv, ebind_error]
  · intro fs p c h1 h2
    have hga : getArchive (.obj fs) = .ok (.arr []) := by
      simp only [getArchive, h1]
    exact expandVH_fallback hga h2

/-- Witness for C5: a record whose `latest` object lacks `version`
fails with exactly `MissingField "version"`, and a record with no
`archive` key renders the Markdown fallback. -/
theorem claim5_witness :
    (∃ k, Err.missingField (str "version") = Err.missingField k) ∧
      expandVH mdPath (Json.obj []) tokVH =
        .ok (replaceAll tokVH (fallbackFor mdPath) tokVH) :=
  ⟨claim5_amended.1 (Json.obj [(str "latest", Json.obj [])])
      (.missingField (str "version")) (by decide),
    claim5_amended.2.2.2 [] mdPath tokVH (by rfl) (by decide)⟩
set_option maxRecDepth 100000 in
/-- C6 (counterexample): the two structured expansions do not commute
for every data record: when a download filename spells the literal
`{{VERSION_HISTORY}}` placeholder, running the download-rows expansion
first injects that token into the page and the subsequent
version-history expansion replaces it, while the opposite order leaves
it verbatim. -/
theorem claim6_counterexample :
    ebind (expandRows mdPath dataInject tokDR) (expandVH mdPath dataInject) ≠
      ebind (expandVH mdPath dataInject tokDR) (expandRows mdPath dataInject) := by
  decide

/-- C6 (amended): the download-rows expansion and the version-history
expansion commute — the order is irrelevant — provided the two
replacement texts cannot interfere with the other expansion's token:
each computed text is non-empty, contains no brace character, and has a
character outside the other placeholder token (all true of rows and
history built from brace-free data with at least one known platform). -/
theorem claim6_amended (p : Str) (d : Json) (c rs hs : Str)
    (hr : rowsStringOf p d = .ok rs) (hh : historyStringOf p d = .ok hs)
    (hrne : rs ≠ []) (hrbf : braceFree rs) (hrex : ∃ ch ∈ rs, ch ∉ tokVH)
    (hhne : hs ≠ []) (hhbf : braceFree hs) (hhex : ∃ ch ∈ hs, ch ∉ tokDR) :
    ebind (expandRows p d c) (expandVH p d) = ebind (expandVH p d c) (expandRows p d) := by
  rw [expandRows_closed hr c, expandVH_closed hh c, ebind_ok, ebind_ok,
    expandVH_closed hh _, expandRows_closed hr _]
  refine congrArg Except.ok ?_
  exact replaceTwoComm (by decide) (by decide) (by decide) (by decide) (by decide)
    hrne hrbf hhne hhbf hrex hhex c

set_option maxRecDepth 100000 in
/-- Witness for C6: the Markdown template path, the full data record
(one known download, no archive), and a template holding both tokens. -/
theorem claim6_witness :
    ebind (expandRows mdPath dataFull (tokDR ++ nl :: tokVH)) (expandVH mdPath dataFull) =
      ebind (expandVH mdPath dataFull (tokDR ++ nl :: tokVH)) (expandRows mdPath dataFull) :=
  claim6_amended mdPath dataFull (tokDR ++ nl :: tokVH)
    (rowText mdPath (str "macOS (Apple Silicon)") (str "10 MB") (str "1.2.0") (str "Vault.dmg"))
    (fallbackFor mdPath)
    (by decide) (by decide) (by decide) (by decide) (by decide)
    (by decide) (by decide) (by decide)

/-- C7: rendering is deterministic — it is a pure function of the
template path and text, the data record and the variables mapping, with
no hidden state, so two invocations on identical inputs produce
identical output. -/
theorem claim7_deterministic (p1 p2 : Str) (t1 t2 : Option Str) (d1 d2 : Json)
    (v1 v2 : List (Str × Str))
    (hp : p1 = p2) (ht : t1 = t2) (hd : d1 = d2) (hv : v1 = v2) :
    generateContent p1 t1 d1 v1 = generateContent p2 t2 d2 v2 := by
  subst hp; subst ht; subst hd; subst hv; rfl

/-- Witness for C7 at concrete inputs. -/
theorem claim7_witness :
    generateContent htmlPath (some tokDR) dataFull varsDemo =
      generateContent htmlPath (some tokDR) dataFull varsDemo :=
  claim7_deterministic htmlPath htmlPath (some tokDR) (some tokDR) dataFull dataFull
    varsDemo varsDemo rfl rfl rfl rfl

/-- C8: for an archive of exactly two (well-formed, newline-free)
entries, the rendered Markdown version history consists of exactly two
list lines, one per entry, in archive order, each linking the text
"Version {version}" to that entry's `github_release_url`. -/
theorem claim8_md_history_two_lines (p v1 u1 v2 u2 : Str) (d : Json)
    (hp : isHtml p = false)
    (ha : getArchive d = .ok (.arr
      [ .obj [(str "version", .str v1), (str "github_release_url", .str u1)]
      , .obj [(str "version", .str v2), (str "github_release_url", .str u2)] ]))
    (hn1 : nl ∉ v1) (hn2 : nl ∉ u1) (hn3 : nl ∉ v2) (hn4 : nl ∉ u2) :
    ∃ hs, historyStringOf p d = .ok hs ∧
      splitOnNl hs = [ str "- [Version " ++ v1 ++ str "](" ++ u1 ++ str ")"
                     , str "- [Version " ++ v2 ++ str "](" ++ u2 ++ str ")" ] := by
  have hvne : str "version" ≠ str "github_release_url" := by decide
  have hg1 : Json.getField
      (.obj [(str "version", Json.str v1), (str "github_release_url", Json.str u1)])
      (str "version") = .ok (.str v1) := getField_cons_hit ..
  have hg2 : Json.getField
      (.obj [(str "version", Json.str v1), (str "github_release_url", Json.str u1)])
      (str "github_release_url") = .ok (.str u1) := by
    rw [getField_cons_miss _ _ _ _ hvne]
    exact getField_cons_hit ..
  have hg3 : Json.getField
      (.obj [(str "version", Json.str v2), (str "github_release_url", Json.str u2)])
      (str "version") = .ok (.str v2) := getField_cons_hit ..
  have hg4 : Json.getField
      (.obj [(str "version", Json.str v2), (str "github_release_url", Json.str u2)])
      (str "github_release_url") = .ok (.str u2) := by
    rw [getField_cons_miss _ _ _ _ hvne]
    exact getField_cons_hit ..
  have hb2 : buildHist p [.obj [(str "version", Json.str v2),
      (str "github_release_url", Json.str u2)]] = .ok [histItem p v2 u2] :=
    buildHist_cons p _ [] hg3 hg4 rfl
  have hb : buildHist p
      [ .obj [(str "version", Json.str v1), (str "github_release_url", Json.str u1)]
      , .obj [(str "version", Json.str v2), (str "github_release_url", Json.str u2)] ] =
      .ok [histItem p v1 u1, histItem p v2 u2] :=
    buildHist_cons p _ _ hg1 hg2 hb2
  have hitem1 : histItem p v1 u1 = str "- [Version " ++ v1 ++ str "](" ++ u1 ++ str ")" := by
    unfold histItem
    rw [hp, if_neg (by simp)]
  have hitem2 : histItem p v2 u2 = str "- [Version " ++ v2 ++ str "](" ++ u2 ++ str ")" := by
    unfold histItem
    rw [hp, if_neg (by simp)]
  have hh : historyStringOf p d = .ok (histItem p v1 u1 ++ nl :: histItem p v2 u2) := by
    unfold historyStringOf
    rw [ha]
    simp only [ebind_ok]
    rw [if_pos (by rfl)]
    simp only [Json.asArr, ebind_ok]
    rw [hb]
    simp only [ebind_ok]
    unfold histContainer
    rw [hp, if_neg (by simp)]
    simp [joinWith]
  refine ⟨_, hh, ?_⟩
  rw [hitem1, hitem2]
  exact splitOnNl_two (nl_not_in_mdItem hn1 hn2) (nl_not_in_mdItem hn3 hn4)

/-- Witness for C8 at a concrete two-entry archive. -/
theorem claim8_witness :
    ∃ hs, historyStringOf mdPath (Json.obj [(str "archive", Json.arr
        [ Json.obj [(str "version", Json.str (str "1.1.0")),
            (str "github_release_url", Json.str (str "https://github.com/barqly/barqly-vault/releases/tag/v1.1.0"))]
        , Json.obj [(str "version", Json.str (str "1.0.0")),
            (str "github_release_url", Json.str (str "https://github.com/barqly/barqly-vault/releases/tag/v1.0.0"))] ])])
      = .ok hs ∧
      splitOnNl hs =
        [ str "- [Version " ++ str "1.1.0" ++ str "](" ++
            str "https://github.com/barqly/barqly-vault/releases/tag/v1.1.0" ++ str ")"
        , str "- [Version " ++ str "1.0.0" ++ str "](" ++
            str "https://github.com/barqly/barqly-vault/releases/tag/v1.0.0" ++ str ")" ] :=
  claim8_md_history_two_lines mdPath (str "1.1.0")
    (str "https://github.com/barqly/barqly-vault/releases/tag/v1.1.0") (str "1.0.0")
    (str "https://github.com/barqly/barqly-vault/releases/tag/v1.0.0") _
    (by decide) (by rfl) (by decide) (by decide) (by decide) (by decide)

set_option maxRecDepth 40000 in
/-- C9 (counterexample): the claim says the exit code is 1 exactly when
the data file is missing; but a present data file with a missing HTML
template also terminates with exit code 1 (an uncaught
`FileNotFoundError`), so code 1 is not exclusive to the missing-data
case. -/
theorem claim9_counterexample :
    mainExit (some dataFull) none (some (str "x")) = 1 ∧
      (some dataFull ≠ (none : Option Json)) :=
  ⟨by decide, fun h => Option.noConfusion h⟩

/-- C9 (amended): the entry point exits 0 on success; a missing data
file is reported as `DataNotFound` and exits 1, and `DataNotFound` is
reported only in that case; other failures (missing template, malformed
data) also terminate with the non-zero code 1 as uncaught errors. -/
theorem claim9_amended :
    (∀ h m : Option Str,
      runMain none h m = .error .dataNotFound ∧ mainExit none h m = 1) ∧
    (∀ (d : Option Json) (h m : Option Str) (out : Str × Str),
      runMain d h m = .ok out → mainExit d h m = 0) ∧
    (∀ (d : Option Json) (h m : Option Str) (e : Err),
      runMain d h m = .error e → mainExit d h m = 1) ∧
    (∀ (d : Option Json) (h m : Option Str),
      runMain d h m = .error .dataNotFound → d = none) := by
  refine ⟨fun h m => ⟨rfl, rfl⟩, ?_, ?_, ?_⟩
  · intro d h m out hok
    unfold mainExit
    rw [hok]
    rfl
  · intro d h m e herr
    unfold mainExit
    rw [herr]
    rfl
  · intro d h m herr
    cases d with
    | none => rfl
    | some data =>
      exfalso
      unfold runMain at herr
      rcases ebind_err herr with h1 | ⟨vars, _, h2⟩
      · obtain ⟨k, hk⟩ := buildVariablesErr h1
        exact Err.noConfusion hk
      · rcases ebind_err h2 with h3 | ⟨html, _, h4⟩
        · exact genNotDataNF h3 rfl
        · rcases ebind_err h4 with h5 | ⟨md, _, h6⟩
          · exact genNotDataNF h5 rfl
          · cases h6

set_option maxRecDepth 40000 in
/-- Witness for C9: a successful run (data plus both templates present)
exits 0, and a missing data file yields `DataNotFound`. -/
theorem claim9_witness :
    mainExit (some dataFull) (some (str "hello")) (some (str "hello")) = 0 ∧
      runMain none (some (str "hello")) (some (str "hello")) = .error .dataNotFound :=
  ⟨claim9_amended.2.1 (some dataFull) (some (str "hello")) (some (str "hello"))
      (str "hello", str "hello") (by decide),
    (claim9_amended.1 (some (str "hello")) (some (str "hello"))).1⟩

/-- C10: the output format is selected solely by whether the substring
`.html` occurs in the template's path string: two template paths that
agree on that test render every template, data record and variables
mapping identically — in the download rows, the version-history items
and the empty-archive fallback alike. -/
theorem claim10_format_by_html (p1 p2 : Str) (h : isHtml p1 = isHtml p2)
    (c : Str) (d : Json) (vars : List (Str × Str)) :
    generateContent p1 (some c) d vars = generateContent p2 (some c) d vars := by
  unfold generateContent
  simp only [expandRows_inv h d, expandVH_inv h d]

/-- Witness for C10: `downloads.html.template` and `index.html` both
contain `.html` and render identically. -/
theorem claim10_witness :
    generateContent htmlPath (some tokDR) dataFull varsDemo =
      generateContent (str "index.html") (some tokDR) dataFull varsDemo :=
  claim10_format_by_html htmlPath (str "index.html") (by decide) tokDR dataFull varsDemo

end BV
